import Mathlib

/-!
# Verification of pandarallel's parallel execution engine

A shallow embedding of `src/pandarallel/pandarallel.py`: the bytecode-level
partial application (`inlined_partial`, `copy_func`), the progress-injection
wrapper (`wrap`), the temporary-file handling of `get_workers_args` /
`parallelize`, the progress-aggregator loop of `get_workers_result`, the
memory-filesystem availability check and the operation registration table of
`pandarallel.initialize`.

Machine values are modelled as integers, CPython bytecode as a small
instruction list (`|` = LOAD_FAST, `}` = STORE_FAST, `d` = LOAD_CONST, plus
arithmetic and RETURN), and a code object as its `co_argcount`,
`co_varnames`, `co_consts` and `co_code` fields.  Stateful parts of the
engine (file handles, the manager queue, the heap of function objects) are
modelled by explicit state passing; Python exceptions by `Option`/`none`.
-/

/-- A runtime value (the engine only needs an opaque comparable payload). -/
abbrev Val := Int

/-- The bytecode instructions `inlined_partial` manipulates: LOAD_FAST
(opcode byte `|`), STORE_FAST (`}`), LOAD_CONST (`d`), and enough extra
opcodes (arithmetic, RETURN_VALUE) to give function bodies observable
behaviour. -/
inductive Instr where
  | loadFast (n : Nat)
  | storeFast (n : Nat)
  | loadConst (n : Nat)
  | binAdd
  | binSub
  | ret
deriving DecidableEq, Repr

/-- A CPython code object restricted to the fields `inlined_partial` reads
and rewrites: `co_argcount`, `co_varnames` (parameters first, then locals),
`co_consts` and `co_code`. -/
structure PyFunc where
  argcount : Nat
  varnames : List String
  consts : List Val
  code : List Instr
deriving DecidableEq, Repr

/-- The CPython evaluation loop on the modelled instructions: a value stack
and a local-variable array (`none` = unbound slot).  Any fault (unbound or
out-of-range local, constant index out of range, stack underflow, falling
off the end of the code) is an exception, `none`. -/
def exec (consts : List Val) : List Instr → List Val → List (Option Val) → Option Val
  | [], _, _ => none
  | Instr.loadFast n :: rest, stack, locals =>
      match locals.getD n none with
      | some v => exec consts rest (v :: stack) locals
      | none => none
  | Instr.storeFast n :: rest, v :: stack, locals =>
      if n < locals.length then exec consts rest stack (locals.set n (some v)) else none
  | Instr.storeFast _ :: _, [], _ => none
  | Instr.loadConst n :: rest, stack, locals =>
      match consts[n]? with
      | some v => exec consts rest (v :: stack) locals
      | none => none
  | Instr.binAdd :: rest, v2 :: v1 :: stack, locals =>
      exec consts rest ((v1 + v2) :: stack) locals
  | Instr.binAdd :: _, _, _ => none
  | Instr.binSub :: rest, v2 :: v1 :: stack, locals =>
      exec consts rest ((v1 - v2) :: stack) locals
  | Instr.binSub :: _, _, _ => none
  | Instr.ret :: _, v :: _, _ => some v
  | Instr.ret :: _, [], _ => none

/-- Calling a function positionally: the arguments fill the first
`co_argcount` local slots, the remaining locals start unbound. -/
def call (f : PyFunc) (args : List Val) : Option Val :=
  if args.length = f.argcount ∧ f.argcount ≤ f.varnames.length then
    exec f.consts f.code [] (args.map some ++ List.replicate (f.varnames.length - args.length) none)
  else none

/-- Recursion worker for `tuple_remove_duplicate`; the fuel (an upper bound
on the list length, decreasing structurally) only makes the recursion
kernel-computable, `trd_cons` recovers the natural recurrence. -/
def trd_go : Nat → List Val → List Val
  | 0, _ => []
  | _ + 1, [] => []
  | fuel + 1, v :: vs => v :: trd_go fuel (vs.filter (fun w => w ≠ v))

/-- `tuple_remove_duplicate` from the source:
`tuple(sorted(set(tuple_), key=tuple_.index))`, i.e. deduplication keeping
the first occurrence of each value in order. -/
def tuple_remove_duplicate (l : List Val) : List Val := trd_go l.length l

/-- `replace_load_fast_by_load_const`: every LOAD_FAST whose slot is a key of
the map becomes a LOAD_CONST of the mapped constant index (the source does
this with a one-pass regex substitution over `co_code`, here per
instruction). -/
def replace_load_fast_by_load_const (bytecode : List Instr) (varname_index2const_index : List (Nat × Nat)) : List Instr :=
  bytecode.map fun i =>
    match i with
    | Instr.loadFast n =>
        match varname_index2const_index.lookup n with
        | some c => Instr.loadConst c
        | none => Instr.loadFast n
    | other => other

/-- `replace_fast_by_fast`: renumber STORE_FAST slots (first pass) and then
LOAD_FAST slots (second pass) through the map, as the source does with two
regex substitutions. -/
def replace_fast_by_fast (bytecode : List Instr) (varname_index2varname_new_index : List (Nat × Nat)) : List Instr :=
  let afterStores := bytecode.map fun i =>
    match i with
    | Instr.storeFast n => Instr.storeFast ((varname_index2varname_new_index.lookup n).getD n)
    | other => other
  afterStores.map fun i =>
    match i with
    | Instr.loadFast n => Instr.loadFast ((varname_index2varname_new_index.lookup n).getD n)
    | other => other

/-- `inlined_partial(func, name, **arg_name2value)` from the source, acting on
the code object.  Python's `tuple(set(fcode.co_varnames) - set(arg_name2value.keys()))`
iterates a hash set in unspecified order, so that order is taken as the
parameter `setOrder`; theorems constrain it to be an enumeration of exactly
that set difference.  The `KeyError` raised when a bound name is not in
`co_varnames` (checked before any rewriting) is `none`. -/
def inlined_partial (f : PyFunc) (bindings : List (String × Val)) (setOrder : List String) : Option PyFunc :=
  if (bindings.map Prod.fst).all (fun nm => f.varnames.contains nm) then
    let new_consts := tuple_remove_duplicate (f.consts ++ bindings.map Prod.snd)
    let varname_index2new_const_index :=
      bindings.map fun p => (f.varnames.indexOf p.1, new_consts.indexOf p.2)
    let new_varnames := setOrder
    let varname_index2varname_new_index :=
      new_varnames.map fun nm => (f.varnames.indexOf nm, new_varnames.indexOf nm)
    let new_co_code := replace_load_fast_by_load_const f.code varname_index2new_const_index
    let new_co_code2 := replace_fast_by_fast new_co_code varname_index2varname_new_index
    some { argcount := f.argcount - bindings.length
           varnames := new_varnames
           consts := new_consts
           code := new_co_code2 }
  else none

/-- A Python function object: its code object plus the identity metadata
`copy_func` transfers (`__name__`, `__defaults__`, `__closure__`, `__dict__`). -/
structure FuncObj where
  fcode : PyFunc
  name : String
  defaults : List Val
  closure : List Val
  attrs : List (String × Val)
deriving DecidableEq, Repr

/-- `copy_func(func, name)`: a fresh `FunctionType` built from the original's
code, defaults and closure, with `__dict__` copied shallowly. -/
def copy_func (func : FuncObj) (name : Option String) : FuncObj :=
  { fcode := func.fcode
    name := name.getD func.name
    defaults := func.defaults
    closure := func.closure
    attrs := func.attrs }

/-- `inlined_partial` at the level of the heap of function objects (the heap
is a list, an object's id its index).  The source validates the bound names,
computes the rewritten code, calls `copy_func`, and then assigns
`new_func.__code__ = CodeType(...)` — an in-place update of the fresh copy
only, modelled as `List.set` at the new object's id. -/
def inlined_partial_heap (heap : List FuncObj) (fid : Nat) (bindings : List (String × Val)) (setOrder : List String) (new_name : String) : List FuncObj × Option Nat :=
  match heap[fid]? with
  | none => (heap, none)
  | some fobj =>
      match  inlined_partial fobj.fcode bindings setOrder with
      | none => (heap, none)
      | some rewritten =>
          let new_func := copy_func fobj (some new_name)
          let nid := heap.length
          let heap1 := heap ++ [new_func]
          (heap1.set nid { new_func with fcode := rewritten }, some nid)

/-- Message tags of the worker-to-coordinator protocol:
`INPUT_FILE_READ, PROGRESSION, VALUE, ERROR = list(range(4))`, carried with
their payloads as a tagged union. -/
inductive Msg where
  | inputFileRead (file_index : Nat)
  | progression (worker_index : Nat) (iteration : Nat)
  | value (worker_index : Nat)
  | error (worker_index : Nat)
deriving DecidableEq, Repr

/-- The state the aggregator records per worker slot:
`finished_workers[i]` starts `False` and is set to the (truthy) tag `VALUE`
or `ERROR`. -/
inductive WorkerState where
  | running
  | finishedValue
  | finishedError
deriving DecidableEq, Repr

/-- The local state of `get_workers_result`'s loop. -/
structure AggState where
  finished_workers : List WorkerState
  progresses : List Nat
  generation : Nat
  inputClosed : List Bool
deriving DecidableEq, Repr

/-- The state just before the `while` loop of `get_workers_result`. -/
def agg_init (nb_workers : Nat) : AggState :=
  { finished_workers := List.replicate nb_workers WorkerState.running
    progresses := List.replicate nb_workers 0
    generation := 0
    inputClosed := List.replicate nb_workers false }

/-- One iteration of the loop body of `get_workers_result` on the message
just taken from the queue. -/
def agg_step (show_progress_bar : Bool) (chunk_lengths : List Nat) (st : AggState) (m : Msg) : AggState :=
  match m with
  | Msg.inputFileRead i => { st with inputClosed := st.inputClosed.set i true }
  | Msg.progression w p =>
      { st with progresses := st.progresses.set w p, generation := st.generation + 1 }
  | Msg.value w =>
      let st1 := { st with finished_workers := st.finished_workers.set w WorkerState.finishedValue }
      if show_progress_bar then
        { st1 with progresses := st1.progresses.set w (chunk_lengths.getD w 0) }
      else st1
  | Msg.error w => { st with finished_workers := st.finished_workers.set w WorkerState.finishedError }

/-- `all(finished_workers)`: every slot holds a truthy tag. -/
def all_finished (st : AggState) : Bool :=
  st.finished_workers.all (fun w => w ≠ WorkerState.running)

/-- The `while not all(finished_workers)` loop.  `queue.get()` blocks, so the
loop is run against the (finite) sequence of messages the workers will ever
deliver: exhausting it with a worker still unfinished means the coordinator
blocks forever, `none`. -/
def agg_loop (show_progress_bar : Bool) (chunk_lengths : List Nat) : AggState → List Msg → Option AggState
  | st, msgs =>
      if all_finished st then some st
      else
        match msgs with
        | [] => none
        | m :: rest => agg_loop show_progress_bar chunk_lengths (agg_step show_progress_bar chunk_lengths st m) rest

/-- The per-worker output files after the pool has finished, as written by
`prepare_worker`: the worker that finishes `k`-th (completion order `σ`) has
index `σ k` and writes its own result to output file `σ k` (work item `i`
carries `input_files[i].name, output_files[i].name, i`).  The log lists
(file index, written content) in completion order. -/
def completion_log (σ : List Nat) (results : Nat → Val) : List (Nat × Val) :=
  σ.map fun i => (i, results i)

/-- `Pool.map_async(global_worker, workers_args)` followed by `.get()`:
multiprocessing's map keeps results in argument order (modelled from that
contract), so worker `i`'s result sits at position `i`. -/
def map_async_get (nb_workers : Nat) (results : Nat → Val) : List Val :=
  (List.range nb_workers).map results

/-- The tail of `get_workers_result`: after the loop, read the results —
`[pickle.load(output_files) for output_files in output_files]` walks the
output-file list in creation order, i.e. partition-index order, whatever
order the workers wrote them in; in direct mode `map_result.get()`. -/
def get_workers_result (use_memory_fs : Bool) (nb_workers : Nat) (show_progress_bar : Bool) (chunk_lengths : List Nat) (σ : List Nat) (results : Nat → Val) (msgs : List Msg) : Option (List Val) :=
  match agg_loop show_progress_bar chunk_lengths (agg_init nb_workers) msgs with
  | none => none
  | some _ =>
      some (if use_memory_fs then
              (List.range nb_workers).map fun i =>
                ((completion_log σ results).lookup i).getD 0
            else map_async_get nb_workers results)

/-- The counter/queue pair `wrap` installs in the worker context. -/
structure ProgressState where
  counter : Nat
  sent : List Msg
deriving Repr

/-- The report period `get_workers_args` computes for each chunk:
`chunk_length // 100`. -/
def worker_period (chunk_length : Nat) : Nat := chunk_length / 100

/-- One invocation of the function `wrap` returns.  With `progress_bar` the
injected prologue runs first: `iteration = next(pandarallel_counter)`, then
`if not iteration % period: pandarallel_queue.put_nowait((PROGRESSION, (index,
iteration)))`, then the original body.  Python's `iteration % 0` raises
`ZeroDivisionError`, modelled as `none`; without `progress_bar`, `wrap`
returns the function unchanged. -/
def wrapped_call (progress_bar : Bool) (index : Nat) (period : Nat) (f : Val → Val) (st : ProgressState) (x : Val) : Option (Val × ProgressState) :=
  if progress_bar then
    let iteration := st.counter
    let st1 : ProgressState := { st with counter := st.counter + 1 }
    if period = 0 then none
    else
      let st2 :=
        if iteration % period = 0 then
          { st1 with sent := st1.sent ++ [Msg.progression index iteration] }
        else st1
      some (f x, st2)
  else some (f x, st)

/-- The pool of open `NamedTemporaryFile` handles of one invocation: `next`
numbers handles, `openFiles` lists the ones not yet closed. -/
structure FileSys where
  next : Nat
  openFiles : List Nat
deriving DecidableEq, Repr

/-- Opening one `NamedTemporaryFile`. -/
def open_temp (fs : FileSys) : FileSys × Nat :=
  ({ next := fs.next + 1, openFiles := fs.openFiles ++ [fs.next] }, fs.next)

/-- `create_temp_files(nb_files)` as handle allocation. -/
def create_temp_files_fs : Nat → FileSys → FileSys × List Nat
  | 0, fs => (fs, [])
  | n + 1, fs =>
      let p := open_temp fs
      let q := create_temp_files_fs n p.1
      (q.1, p.2 :: q.2)

/-- `file.close()`. -/
def close_file (fs : FileSys) (h : Nat) : FileSys :=
  { fs with openFiles := fs.openFiles.filter (fun x => x ≠ h) }

/-- The resource behaviour of `get_workers_args` in shared-memory mode: open
`nb_workers` input and `nb_workers` output files, then serialize each chunk
into its input file (`dump_and_get_lenght`); `dump_ok k` says whether dumping
chunk `k` succeeds, and a failed dump raises out of the function with every
handle still open. -/
def get_workers_args_fs (nb_workers : Nat) (dump_ok : Nat → Bool) (fs : FileSys) : FileSys × Option (List Nat × List Nat) :=
  let p := create_temp_files_fs nb_workers fs
  let q := create_temp_files_fs nb_workers p.1
  if (List.range nb_workers).all dump_ok then (q.1, some (p.2, q.2))
  else (q.1, none)

/-- The resource behaviour of the closure `parallelize` returns, in
shared-memory mode: `get_workers_args` runs before the `try:`; the
`finally:` closes `input_files + output_files` whether the body (pool,
aggregation, reduce — `body_ok`) returns or raises.  The returned flag says
whether the call returned normally. -/
def parallelize_shared_mem (nb_workers : Nat) (dump_ok : Nat → Bool) (body_ok : Bool) (fs : FileSys) : FileSys × Bool :=
  match get_workers_args_fs nb_workers dump_ok fs with
  | (fs1, none) => (fs1, false)
  | (fs1, some (ins, outs)) => ((ins ++ outs).foldl close_file fs1, body_ok)

/-- The constants naming temporary files in the source. -/
def PREFIX_INPUT : String := "pandarallel_" ++ "input_"

/-- `PREFIX_OUTPUT` is defined in the source (and never passed to
`create_temp_files`). -/
def PREFIX_OUTPUT : String := "pandarallel_" ++ "output_"

/-- The serialization-format suffix of every temporary file. -/
def SUFFIX : String := ".pickle"

/-- `MEMORY_FS_ROOT = "/dev/shm"`. -/
def MEMORY_FS_ROOT : String := "/dev/shm"

/-- The naming attributes `NamedTemporaryFile` receives. -/
structure TempFile where
  filePrefix : String
  fileSuffix : String
  dir : String
deriving DecidableEq, Repr

/-- `create_temp_files(nb_files)`: every file — the source has a single call
site shape, `NamedTemporaryFile(prefix=PREFIX_INPUT, suffix=SUFFIX,
dir=MEMORY_FS_ROOT)` — is named with `PREFIX_INPUT`. -/
def create_temp_files (nb_files : Nat) : List TempFile :=
  (List.range nb_files).map fun _ => ⟨PREFIX_INPUT, SUFFIX, MEMORY_FS_ROOT⟩

/-- The files `get_workers_args` creates in shared-memory mode:
`input_files = create_temp_files(nb_workers)` and
`output_files = create_temp_files(nb_workers)`. -/
def get_workers_args_files (nb_workers : Nat) : List TempFile × List TempFile :=
  (create_temp_files nb_workers, create_temp_files nb_workers)

/-- The environment facts `is_memory_fs_available` could consult: whether
`/dev/shm` exists and whether the user may write to it. -/
structure MemFsEnv where
  shm_exists : Bool
  shm_writable : Bool
deriving DecidableEq, Repr

/-- `is_memory_fs_available()` from the source: `return
os.path.exists(MEMORY_FS_ROOT)` — existence only. -/
def is_memory_fs_available (e : MemFsEnv) : Bool := e.shm_exists

/-- Modelled from the spec: "presence and write-access of a well-known
memory-backed filesystem mount path determines shared-memory-mode
availability" (and the source's own docstring: available only if `/dev/shm`
exists and the user has read and write rights on it). -/
def is_memory_fs_available_spec (e : MemFsEnv) : Bool :=
  e.shm_exists && e.shm_writable

/-- `use_memory_fs = use_memory_fs or use_memory_fs is None and
memory_fs_available`. -/
def resolve_use_memory_fs (requested : Option Bool) (memory_fs_available : Bool) : Bool :=
  match requested with
  | some b => b
  | none => memory_fs_available

/-- `if use_memory_fs and not memory_fs_available: raise SystemError(...)` —
whether initialization fails fatally, before any registration is installed. -/
def init_raises_system_error (requested : Option Bool) (e : MemFsEnv) : Bool :=
  resolve_use_memory_fs requested (is_memory_fs_available e) && !(is_memory_fs_available e)

/-- The triple `(nb_workers, use_memory_fs, progress_bar)` each registered
operation's `parallelize` closure captures (`bargs` without the context). -/
structure BArgs where
  nb_workers : Nat
  use_memory_fs : Bool
  progress_bar : Bool
deriving DecidableEq, Repr

/-- The registration table the tail of `pandarallel.initialize` installs:
all operations receive `bargs = (nbw, use_memory_fs, progress_bar, context)`
except `DataFrameGroupBy.parallel_apply`, which receives `bargs0 = (nbw,
use_memory_fs, False, context)`. -/
def pandarallel_registrations (nbw : Nat) (use_memory_fs progress_bar : Bool) : List (String × BArgs) :=
  let bargs : BArgs := ⟨nbw, use_memory_fs, progress_bar⟩
  let bargs0 : BArgs := ⟨nbw, use_memory_fs, false⟩
  [("DataFrame.parallel_apply", bargs),
   ("DataFrame.parallel_applymap", bargs),
   ("Series.parallel_apply", bargs),
   ("Series.parallel_map", bargs),
   ("Rolling.parallel_apply", bargs),
   ("DataFrameGroupBy.parallel_apply", bargs0),
   ("RollingGroupby.parallel_apply", bargs)]

/-- The per-instruction effect of the two rewrite passes of
`inlined_partial` combined (LOAD_FAST of a bound slot becomes LOAD_CONST;
surviving LOAD_FAST/STORE_FAST slots are renumbered). -/
def rwInstr (cmap vmap : List (Nat × Nat)) : Instr → Instr
  | Instr.loadFast n =>
      match cmap.lookup n with
      | some c => Instr.loadConst c
      | none => Instr.loadFast ((vmap.lookup n).getD n)
  | Instr.storeFast n => Instr.storeFast ((vmap.lookup n).getD n)
  | i => i

/-- Fixture: `def f(a, b, c): return (a - c) + b`. -/
def exF_abc : PyFunc :=
  { argcount := 3
    varnames := ["a", "b", "c"]
    consts := []
    code := [Instr.loadFast 0, Instr.loadFast 2, Instr.binSub, Instr.loadFast 1, Instr.binAdd,
             Instr.ret] }

/-- Fixture: `def f(a): x = ...; return a` — one parameter `a` and one local
variable `x` (`co_varnames = ("a", "x")`). -/
def exF_local : PyFunc :=
  { argcount := 1
    varnames := ["a", "x"]
    consts := []
    code := [Instr.loadFast 0, Instr.ret] }

/-- Fixture: `def f(a): return a`. -/
def exF_id : PyFunc :=
  { argcount := 1
    varnames := ["a"]
    consts := []
    code := [Instr.loadFast 0, Instr.ret] }

theorem getD_set_same {α} (l : List α) (i : Nat) (a d : α) (h : i < l.length) :
    (l.set i a).getD i d = a := by
  simp [List.getD_eq_getElem?_getD, List.getElem?_set_self h]

theorem getD_set_other {α} (l : List α) {i j : Nat} (a d : α) (h : i ≠ j) :
    (l.set i a).getD j d = l.getD j d := by
  simp [List.getD_eq_getElem?_getD, List.getElem?_set_ne h]

theorem set_append_singleton {α} (l : List α) (a b : α) :
    (l ++ [a]).set l.length b = l ++ [b] := by
  induction l with
  | nil => rfl
  | cons x xs ih => simp [List.set, ih]

/-- C10: for every heap of function objects, target id and bindings,
`inlined_partial` leaves every pre-existing object — in particular the
original function `f` — untouched, on success and on failure alike: the
rewritten code object is installed only on the fresh copy `copy_func`
appended to the heap. -/
theorem C10_original_function_unmutated :
    ∀ (heap : List FuncObj) (fid : Nat) (bindings : List (String × Val))
      (setOrder : List String) (new_name : String),
      ((inlined_partial_heap heap fid bindings setOrder new_name).1).take heap.length = heap := by
  intro heap fid bindings setOrder new_name
  unfold inlined_partial_heap
  cases h1 : heap[fid]? with
  | none => simp
  | some fobj =>
      cases h2 :  inlined_partial fobj.fcode bindings setOrder with
      | none => simp [h2]
      | some rewritten =>
          simp only [h2, set_append_singleton]
          exact List.take_left heap _

/-- C3: with the progress bar enabled, the wrapper `wrap` builds for a chunk
of fewer than 100 elements (here 50, so `period = 50 // 100 = 0`) raises
`ZeroDivisionError` (`iteration % 0`) on its very first invocation instead
of returning the original function's value, while the same call without the
progress bar returns the unchanged result `f 3 = 4`. -/
theorem C3_zero_period_raises :
    worker_period 50 = 0 ∧
    wrapped_call true 0 (worker_period 50) (fun v => v + 1) ⟨0, []⟩ 3 = none ∧
    wrapped_call false 0 (worker_period 50) (fun v => v + 1) ⟨0, []⟩ 3 = some (4, ⟨0, []⟩) :=
  ⟨rfl, rfl, rfl⟩

/-- C7: `is_memory_fs_available` consults only the existence of `/dev/shm`:
in an environment where the mount path exists but is not writable it still
reports `true`, contradicting the required "exists and is writable"
condition (`is_memory_fs_available_spec`), and consequently an explicit
`use_memory_fs=True` request in that environment raises no `SystemError`.
When the path does not exist, the fatal error fires as claimed. -/
theorem C7_memory_fs_check_ignores_writable :
    is_memory_fs_available ⟨true, false⟩ = true ∧
    is_memory_fs_available_spec ⟨true, false⟩ = false ∧
    init_raises_system_error (some true) ⟨true, false⟩ = false ∧
    init_raises_system_error (some true) ⟨false, false⟩ = true := by
  decide

/-- C8 counterexample: in a shared-memory invocation with one worker, the
output temporary file is created with the input-marking prefix
`pandarallel_input_`, not a distinct output-marking prefix: the claim that
output files carry a distinct output prefix fails. -/
theorem C8_cex_output_file_has_input_prefix :
    (get_workers_args_files 1).2 = [⟨PREFIX_INPUT, SUFFIX, MEMORY_FS_ROOT⟩] ∧
    PREFIX_INPUT ≠ PREFIX_OUTPUT := by
  constructor
  · rfl
  · decide

/-- C8 amended: every temporary file of an invocation — the input files and
the output files alike — is named with the input-marking prefix
`pandarallel_input_` and the fixed serialization suffix `.pickle`
(`PREFIX_OUTPUT` is defined but never used by `create_temp_files`). -/
theorem C8_all_temp_files_input_prefix :
    ∀ (nb_workers : Nat),
      (((get_workers_args_files nb_workers).1 ++ (get_workers_args_files nb_workers).2).all
        (fun f => f.filePrefix == PREFIX_INPUT && f.fileSuffix == SUFFIX)) = true := by
  intro nb_workers
  simp only [get_workers_args_files, create_temp_files, List.all_eq_true, List.mem_append,
    List.mem_map]
  rintro f (⟨i, _, rfl⟩ | ⟨i, _, rfl⟩) <;> rfl

/-- C9: whatever `progress_bar` is passed to `pandarallel.initialize`,
`DataFrameGroupBy.parallel_apply` is registered with `bargs0`, whose
progress flag is `False`; every other registered operation carries the
caller's `progress_bar`; and a `wrap` with the flag off returns the function
unchanged — its calls neither touch the counter nor enqueue a `Progress`
message. -/
theorem C9_groupby_progress_disabled :
    (∀ (nbw : Nat) (um pb : Bool),
      (pandarallel_registrations nbw um pb).lookup "DataFrameGroupBy.parallel_apply" =
        some ⟨nbw, um, false⟩)
    ∧ (∀ (nbw : Nat) (um pb : Bool) (e : String × BArgs),
        e ∈ pandarallel_registrations nbw um pb →
        e.1 ≠ "DataFrameGroupBy.parallel_apply" → e.2.progress_bar = pb)
    ∧ (∀ (index period : Nat) (f : Val → Val) (st : ProgressState) (x : Val),
        wrapped_call false index period f st x = some (f x, st)) := by
  refine ⟨?_, ?_, ?_⟩
  · intro nbw um pb
    rfl
  · intro nbw um pb e he hne
    simp only [pandarallel_registrations, List.mem_cons, List.not_mem_nil, or_false] at he
    rcases he with rfl | rfl | rfl | rfl | rfl | rfl | rfl
    · rfl
    · rfl
    · rfl
    · rfl
    · rfl
    · exact absurd rfl hne
    · rfl
  · intro index period f st x
    rfl

theorem create_temp_files_fs_spec :
    ∀ (n : Nat) (fs : FileSys),
      create_temp_files_fs n fs =
        ({ next := fs.next + n, openFiles := fs.openFiles ++ List.range' fs.next n },
         List.range' fs.next n) := by
  intro n
  induction n with
  | zero => intro fs; simp [create_temp_files_fs]
  | succ k ih =>
      intro fs
      simp only [create_temp_files_fs, open_temp, ih, List.range', Prod.mk.injEq,
        FileSys.mk.injEq, List.append_assoc, List.singleton_append]
      and_intros <;> first | omega | rfl | trivial

theorem foldl_close_file_spec :
    ∀ (l : List Nat) (fs : FileSys),
      (l.foldl close_file fs).openFiles = fs.openFiles.filter (fun x => !l.contains x) := by
  intro l
  induction l with
  | nil => intro fs; simp
  | cons h t ih =>
      intro fs
      simp only [List.foldl_cons, ih, close_file, List.filter_filter]
      apply List.filter_congr
      intro x _
      by_cases hx : x = h
      · subst hx; simp
      · simp [hx]

/-- C4 counterexample: with one worker in shared-memory mode, a failure
while serializing the partition to its input file (`dump_ok 0 = false`, a
failure in `dump_and_get_lenght` inside `get_workers_args`) escapes before
the `try/finally` of `parallelize` is entered: the call raises with both
temporary files (handles 0 and 1) still open, so not every temporary file
is closed before the call returns. -/
theorem C4_cex_dump_failure_leaks_files :
    (parallelize_shared_mem 1 (fun _ => false) true ⟨0, []⟩).1.openFiles = [0, 1] ∧
    (parallelize_shared_mem 1 (fun _ => false) true ⟨0, []⟩).2 = false := by
  constructor
  · rfl
  · rfl

/-- C4 amended: the `finally:` of `parallelize` guarantees that every
temporary file is closed before the call returns on the success path and on
every failure raised after the work items are built (pool creation,
aggregation, reduction — any `body_ok`); a failure while the partitions are
being serialized, however, is outside that guarantee. -/
theorem C4_cleanup_after_args_built :
    ∀ (nb_workers : Nat) (dump_ok : Nat → Bool) (body_ok : Bool),
      (List.range nb_workers).all dump_ok = true →
      (parallelize_shared_mem nb_workers dump_ok body_ok ⟨0, []⟩).1.openFiles = [] := by
  intro nb_workers dump_ok body_ok hdump
  simp only [parallelize_shared_mem, get_workers_args_fs, create_temp_files_fs_spec, hdump,
    if_true, List.nil_append]
  rw [foldl_close_file_spec]
  rw [List.filter_eq_nil_iff]
  intro a ha
  simp only [Bool.not_eq_true', Bool.not_eq_false]
  exact List.elem_iff.mpr ha

/-- C4 witness: one worker, both dumps succeed, the pool phase raises — the
`finally:` still leaves no open file. -/
theorem C4_cleanup_witness :
    (parallelize_shared_mem 1 (fun _ => true) false ⟨0, []⟩).1.openFiles = [] :=
  C4_cleanup_after_args_built 1 (fun _ => true) false rfl

theorem agg_step_length (b : Bool) (cl : List Nat) (st : AggState) (m : Msg) :
    (agg_step b cl st m).finished_workers.length = st.finished_workers.length := by
  cases m with
  | inputFileRead i => rfl
  | progression w p => rfl
  | value w => cases b <;> simp [agg_step]
  | error w => simp [agg_step]

theorem agg_step_finished_value (b : Bool) (cl : List Nat) (st : AggState) (w : Nat) :
    (agg_step b cl st (Msg.value w)).finished_workers
      = st.finished_workers.set w WorkerState.finishedValue := by
  cases b <;> rfl

theorem agg_step_finished_error (b : Bool) (cl : List Nat) (st : AggState) (w : Nat) :
    (agg_step b cl st (Msg.error w)).finished_workers
      = st.finished_workers.set w WorkerState.finishedError := rfl

theorem agg_step_finished_of (b : Bool) (cl : List Nat) (st : AggState) (m : Msg) (w : Nat)
    (h : (agg_step b cl st m).finished_workers.getD w WorkerState.running ≠ WorkerState.running) :
    st.finished_workers.getD w WorkerState.running ≠ WorkerState.running
      ∨ m = Msg.value w ∨ m = Msg.error w := by
  cases m with
  | inputFileRead i => exact Or.inl h
  | progression w' p => exact Or.inl h
  | value w' =>
      by_cases hw : w' = w
      · subst hw
        exact Or.inr (Or.inl rfl)
      · rw [agg_step_finished_value, getD_set_other _ _ _ hw] at h
        exact Or.inl h
  | error w' =>
      by_cases hw : w' = w
      · subst hw
        exact Or.inr (Or.inr rfl)
      · rw [agg_step_finished_error, getD_set_other _ _ _ hw] at h
        exact Or.inl h

theorem agg_step_preserves_finished (b : Bool) (cl : List Nat) (st : AggState) (m : Msg) (w : Nat)
    (hw : w < st.finished_workers.length)
    (h : st.finished_workers.getD w WorkerState.running ≠ WorkerState.running) :
    (agg_step b cl st m).finished_workers.getD w WorkerState.running ≠ WorkerState.running := by
  cases m with
  | inputFileRead i => exact h
  | progression w' p => exact h
  | value w' =>
      rw [agg_step_finished_value]
      by_cases hww : w' = w
      · subst hww
        rw [getD_set_same _ _ _ _ hw]
        simp
      · rw [getD_set_other _ _ _ hww]
        exact h
  | error w' =>
      rw [agg_step_finished_error]
      by_cases hww : w' = w
      · subst hww
        rw [getD_set_same _ _ _ _ hw]
        simp
      · rw [getD_set_other _ _ _ hww]
        exact h

theorem agg_step_value_finishes (b : Bool) (cl : List Nat) (st : AggState) (w : Nat)
    (hw : w < st.finished_workers.length) :
    (agg_step b cl st (Msg.value w)).finished_workers.getD w WorkerState.running
      ≠ WorkerState.running := by
  rw [agg_step_finished_value, getD_set_same _ _ _ _ hw]
  simp

theorem agg_step_error_finishes (b : Bool) (cl : List Nat) (st : AggState) (w : Nat)
    (hw : w < st.finished_workers.length) :
    (agg_step b cl st (Msg.error w)).finished_workers.getD w WorkerState.running
      ≠ WorkerState.running := by
  rw [agg_step_finished_error, getD_set_same _ _ _ _ hw]
  simp

theorem all_finished_iff_getD (st : AggState) :
    all_finished st = true ↔
      ∀ w, w < st.finished_workers.length →
        st.finished_workers.getD w WorkerState.running ≠ WorkerState.running := by
  simp only [all_finished, List.all_eq_true, decide_eq_true_eq]
  constructor
  · intro h w hw
    rw [List.getD_eq_getElem _ _ hw]
    exact h _ (List.getElem_mem hw)
  · intro h x hx
    obtain ⟨i, hi, rfl⟩ := List.mem_iff_getElem.mp hx
    have := h i hi
    rwa [List.getD_eq_getElem _ _ hi] at this

theorem agg_loop_finished (b : Bool) (cl : List Nat) (st : AggState) (msgs : List Msg)
    (h : all_finished st = true) : agg_loop b cl st msgs = some st := by
  simp [agg_loop.eq_def, h]

theorem agg_loop_unfinished_nil (b : Bool) (cl : List Nat) (st : AggState)
    (h : all_finished st = false) : agg_loop b cl st [] = none := by
  simp [agg_loop.eq_def, h]

theorem agg_loop_unfinished_cons (b : Bool) (cl : List Nat) (st : AggState) (m : Msg)
    (rest : List Msg) (h : all_finished st = false) :
    agg_loop b cl st (m :: rest) = agg_loop b cl (agg_step b cl st m) rest := by
  conv_lhs => rw [agg_loop.eq_def]
  simp [h]

theorem agg_loop_some_finished (b : Bool) (cl : List Nat) :
    ∀ (msgs : List Msg) (st st' : AggState),
      agg_loop b cl st msgs = some st' → all_finished st' = true := by
  intro msgs
  induction msgs with
  | nil =>
      intro st st' h
      by_cases hf : all_finished st = true
      · rw [agg_loop_finished b cl st [] hf] at h
        cases h
        exact hf
      · rw [agg_loop_unfinished_nil b cl st (by simpa using hf)] at h
        cases h
  | cons m rest ih =>
      intro st st' h
      by_cases hf : all_finished st = true
      · rw [agg_loop_finished b cl st _ hf] at h
        cases h
        exact hf
      · rw [agg_loop_unfinished_cons b cl st m rest (by simpa using hf)] at h
        exact ih _ _ h

theorem agg_loop_isSome_iff (b : Bool) (cl : List Nat) :
    ∀ (msgs : List Msg) (st : AggState),
      (agg_loop b cl st msgs).isSome = true ↔
        ∀ w, w < st.finished_workers.length →
          st.finished_workers.getD w WorkerState.running ≠ WorkerState.running
          ∨ Msg.value w ∈ msgs ∨ Msg.error w ∈ msgs := by
  intro msgs
  induction msgs with
  | nil =>
      intro st
      by_cases hf : all_finished st = true
      · rw [agg_loop_finished b cl st [] hf]
        simp only [Option.isSome_some, true_iff]
        intro w hw
        exact Or.inl ((all_finished_iff_getD st).mp hf w hw)
      · rw [agg_loop_unfinished_nil b cl st (by simpa using hf)]
        refine ⟨fun h => absurd h (by simp), fun hall => ?_⟩
        exfalso
        apply hf
        rw [all_finished_iff_getD]
        intro w hw
        rcases hall w hw with hfin | hmem | hmem
        · exact hfin
        · simp at hmem
        · simp at hmem
  | cons m rest ih =>
      intro st
      by_cases hf : all_finished st = true
      · rw [agg_loop_finished b cl st _ hf]
        simp only [Option.isSome_some, true_iff]
        intro w hw
        exact Or.inl ((all_finished_iff_getD st).mp hf w hw)
      · rw [agg_loop_unfinished_cons b cl st m rest (by simpa using hf)]
        rw [ih (agg_step b cl st m)]
        constructor
        · intro hall w hw
          have hw' : w < (agg_step b cl st m).finished_workers.length := by
            rw [agg_step_length]
            exact hw
          rcases hall w hw' with hfin | hmem | hmem
          · rcases agg_step_finished_of b cl st m w hfin with hfin' | rfl | rfl
            · exact Or.inl hfin'
            · exact Or.inr (Or.inl (List.mem_cons_self _ _))
            · exact Or.inr (Or.inr (List.mem_cons_self _ _))
          · exact Or.inr (Or.inl (List.mem_cons_of_mem _ hmem))
          · exact Or.inr (Or.inr (List.mem_cons_of_mem _ hmem))
        · intro hall w hw
          have hw0 : w < st.finished_workers.length := by
            rw [agg_step_length] at hw
            exact hw
          rcases hall w hw0 with hfin | hmem | hmem
          · exact Or.inl (agg_step_preserves_finished b cl st m w hw0 hfin)
          · rcases List.mem_cons.mp hmem with heq | hmem'
            · rw [← heq]
              exact Or.inl (agg_step_value_finishes b cl st w hw0)
            · exact Or.inr (Or.inl hmem')
          · rcases List.mem_cons.mp hmem with heq | hmem'
            · rw [← heq]
              exact Or.inl (agg_step_error_finishes b cl st w hw0)
            · exact Or.inr (Or.inr hmem')

theorem agg_init_getD (N w : Nat) :
    (agg_init N).finished_workers.getD w WorkerState.running = WorkerState.running := by
  simp only [agg_init, List.getD_eq_getElem?_getD, List.getElem?_replicate]
  by_cases h : w < N <;> simp [h]

theorem agg_loop_init_isSome_iff (b : Bool) (cl : List Nat) (N : Nat) (msgs : List Msg) :
    (agg_loop b cl (agg_init N) msgs).isSome = true ↔
      ∀ w, w < N → Msg.value w ∈ msgs ∨ Msg.error w ∈ msgs := by
  rw [agg_loop_isSome_iff]
  simp only [agg_init, List.length_replicate]
  constructor
  · intro h w hw
    rcases h w hw with hfin | hmem | hmem
    · exact absurd (agg_init_getD N w) hfin
    · exact Or.inl hmem
    · exact Or.inr hmem
  · intro h w hw
    rcases h w hw with hmem | hmem
    · exact Or.inr (Or.inl hmem)
    · exact Or.inr (Or.inr hmem)

/-- C6: the aggregator loop of `get_workers_result` returns only in a state
where every worker slot is finished; it returns (rather than blocking
forever on `queue.get()`) exactly when the delivered messages contain a
`Value` or `Error` for every one of the `N` workers — there is no timeout
or early exit — and neither an `InputRead` nor a `Progress` message changes
any worker's finished state. -/
theorem C6_agg_loop_termination :
    (∀ (b : Bool) (cl : List Nat) (msgs : List Msg) (st st' : AggState),
        agg_loop b cl st msgs = some st' → all_finished st' = true)
    ∧ (∀ (b : Bool) (cl : List Nat) (N : Nat) (msgs : List Msg),
        (agg_loop b cl (agg_init N) msgs).isSome = true ↔
          ∀ w, w < N → Msg.value w ∈ msgs ∨ Msg.error w ∈ msgs)
    ∧ (∀ (b : Bool) (cl : List Nat) (st : AggState) (i : Nat),
        (agg_step b cl st (Msg.inputFileRead i)).finished_workers = st.finished_workers)
    ∧ (∀ (b : Bool) (cl : List Nat) (st : AggState) (w p : Nat),
        (agg_step b cl st (Msg.progression w p)).finished_workers = st.finished_workers) := by
  refine ⟨?_, ?_, ?_, ?_⟩
  · intro b cl msgs st st' h
    exact agg_loop_some_finished b cl msgs st st' h
  · intro b cl N msgs
    exact agg_loop_init_isSome_iff b cl N msgs
  · intro b cl st i
    rfl
  · intro b cl st w p
    rfl

theorem completion_log_lookup (σ : List Nat) (results : Nat → Val) (i : Nat) (hi : i ∈ σ) :
    (completion_log σ results).lookup i = some (results i) := by
  induction σ with
  | nil => simp at hi
  | cons a t ih =>
      simp only [completion_log, List.map_cons, List.lookup_cons]
      by_cases hia : i = a
      · subst hia
        simp
      · have hb : (i == a) = false := by simpa using hia
        rw [hb]
        rcases List.mem_cons.mp hi with heq | hmem
        · exact absurd heq hia
        · exact ih hmem

/-- C5: on every successful run — whatever completion order `σ` the workers
finish in, and whatever interleaving of messages the queue delivers — the
list `get_workers_result` hands to the reducer is the per-partition results
in original partition-index order: output files are deserialized in index
order in shared-memory mode, and `map_async`'s order-preserving result is
used in direct mode. -/
theorem C5_results_in_index_order :
    ∀ (use_memory_fs : Bool) (nb_workers : Nat) (show_progress_bar : Bool)
      (chunk_lengths : List Nat) (σ : List Nat) (results : Nat → Val) (msgs : List Msg),
      (∀ i, i < nb_workers → i ∈ σ) →
      (∀ w, w < nb_workers → Msg.value w ∈ msgs ∨ Msg.error w ∈ msgs) →
      get_workers_result use_memory_fs nb_workers show_progress_bar chunk_lengths σ results msgs
        = some ((List.range nb_workers).map results) := by
  intro um n b cl σ results msgs hσ hmsgs
  have hsome : (agg_loop b cl (agg_init n) msgs).isSome = true :=
    (agg_loop_init_isSome_iff b cl n msgs).mpr hmsgs
  unfold get_workers_result
  cases hloop : agg_loop b cl (agg_init n) msgs with
  | none => rw [hloop] at hsome; simp at hsome
  | some st' =>
      simp only
      cases um with
      | false => rfl
      | true =>
          simp only [if_true]
          congr 1
          apply List.map_congr_left
          intro i hi
          have hin : i ∈ σ := hσ i (List.mem_range.mp hi)
          rw [completion_log_lookup σ results i hin]
          rfl

/-- C5 witness: two workers finishing out of order (worker 1 first) in
shared-memory mode still yield results ordered by partition index. -/
theorem C5_results_witness :
    get_workers_result true 2 false [] [1, 0] (fun i => (i : Int)) [Msg.value 1, Msg.value 0]
      = some ((List.range 2).map (fun i => (i : Int))) :=
  C5_results_in_index_order true 2 false [] [1, 0] (fun i => (i : Int))
    [Msg.value 1, Msg.value 0] (by decide) (by decide)

theorem lookup_map_pair {α : Type} {γ : Type} (l : List α) (k : α → Nat) (v : α → γ) (a : α)
    (ha : a ∈ l) (hinj : ∀ b ∈ l, k b = k a → b = a) :
    (l.map fun x => (k x, v x)).lookup (k a) = some (v a) := by
  induction l with
  | nil => simp at ha
  | cons x t ih =>
      simp only [List.map_cons, List.lookup_cons]
      by_cases hx : k a = k x
      · have hxa : x = a := hinj x (List.mem_cons_self x t) hx.symm
        subst hxa
        simp
      · have hb : (k a == k x) = false := by simpa using hx
        rw [hb]
        have ha' : a ∈ t := by
          rcases List.mem_cons.mp ha with rfl | h
          · exact absurd rfl hx
          · exact h
        exact ih ha' (fun b hb hk => hinj b (List.mem_cons_of_mem _ hb) hk)

theorem lookup_map_pair_none {α : Type} {γ : Type} (l : List α) (k : α → Nat) (v : α → γ)
    (j : Nat) (h : ∀ a ∈ l, k a ≠ j) : (l.map fun x => (k x, v x)).lookup j = none := by
  induction l with
  | nil => rfl
  | cons x t ih =>
      simp only [List.map_cons, List.lookup_cons]
      have hb : (j == k x) = false := by
        simp only [beq_eq_false_iff_ne, ne_eq]
        intro he
        exact h x (List.mem_cons_self x t) he.symm
      rw [hb]
      exact ih (fun a ha => h a (List.mem_cons_of_mem _ ha))

theorem lookup_mem_pairs {γ : Type} (l : List (String × γ)) (nm : String) (v : γ)
    (h : l.lookup nm = some v) : (nm, v) ∈ l := by
  induction l with
  | nil => simp [List.lookup] at h
  | cons x t ih =>
      rcases x with ⟨a, b⟩
      rw [List.lookup_cons] at h
      by_cases hx : nm = a
      · subst hx
        have hb : (nm == nm) = true := by simp
        rw [hb] at h
        cases h
        exact List.mem_cons_self _ _
      · have hb : (nm == a) = false := by simpa using hx
        rw [hb] at h
        exact List.mem_cons_of_mem _ (ih h)

theorem lookup_isSome_of_mem_keys {γ : Type} (l : List (String × γ)) (nm : String)
    (h : nm ∈ l.map Prod.fst) : ∃ v, l.lookup nm = some v := by
  induction l with
  | nil => simp at h
  | cons x t ih =>
      rcases x with ⟨a, b⟩
      rw [List.lookup_cons]
      by_cases hx : nm = a
      · have hb : (nm == a) = true := by simpa using hx
        rw [hb]
        exact ⟨b, rfl⟩
      · have hb : (nm == a) = false := by simpa using hx
        rw [hb]
        apply ih
        simp only [List.map_cons, List.mem_cons] at h
        rcases h with h | h
        · exact absurd h hx
        · exact h

theorem eq_of_fst_nodup {γ : Type} (l : List (String × γ)) (h : (l.map Prod.fst).Nodup)
    (p q : String × γ) (hp : p ∈ l) (hq : q ∈ l) (hfst : p.1 = q.1) : p = q := by
  induction l with
  | nil => simp at hp
  | cons x t ih =>
      simp only [List.map_cons, List.nodup_cons] at h
      rcases List.mem_cons.mp hp with rfl | hp'
      · rcases List.mem_cons.mp hq with rfl | hq'
        · rfl
        · exact absurd (hfst ▸ List.mem_map_of_mem Prod.fst hq') h.1
      · rcases List.mem_cons.mp hq with rfl | hq'
        · exact absurd (hfst ▸ List.mem_map_of_mem Prod.fst hp') h.1
        · exact ih h.2 hp' hq'

theorem trd_go_congr : ∀ (fuel₁ : Nat) (l : List Val) (fuel₂ : Nat),
    l.length ≤ fuel₁ → l.length ≤ fuel₂ → trd_go fuel₁ l = trd_go fuel₂ l := by
  intro fuel₁
  induction fuel₁ with
  | zero =>
      intro l fuel₂ h1 _
      have : l = [] := List.length_eq_zero.mp (Nat.le_zero.mp h1)
      subst this
      cases fuel₂ <;> rfl
  | succ k ih =>
      intro l fuel₂ h1 h2
      cases l with
      | nil => cases fuel₂ <;> rfl
      | cons v vs =>
          cases fuel₂ with
          | zero => simp at h2
          | succ k2 =>
              simp only [trd_go, List.cons.injEq, true_and]
              apply ih
              · exact le_trans (List.length_filter_le _ _) (Nat.le_of_succ_le_succ h1)
              · exact le_trans (List.length_filter_le _ _) (Nat.le_of_succ_le_succ h2)

theorem trd_cons (v : Val) (vs : List Val) :
    tuple_remove_duplicate (v :: vs)
      = v :: tuple_remove_duplicate (vs.filter (fun w => w ≠ v)) := by
  unfold tuple_remove_duplicate
  simp only [List.length_cons, trd_go, List.cons.injEq, true_and]
  exact trd_go_congr _ _ _ (List.length_filter_le _ _) le_rfl

theorem trd_prefix : ∀ (l l2 : List Val), l.Nodup → l <+: tuple_remove_duplicate (l ++ l2) := by
  intro l
  induction l with
  | nil => intro l2 _; exact List.nil_prefix
  | cons x xs ih =>
      intro l2 h
      rw [List.cons_append, trd_cons]
      rw [List.cons_prefix_cons]
      refine ⟨rfl, ?_⟩
      rw [List.filter_append]
      have hxs : xs.filter (fun w => w ≠ x) = xs := by
        rw [List.filter_eq_self]
        intro a ha
        simp only [ne_eq, decide_eq_true_eq]
        intro hax
        subst hax
        exact (List.nodup_cons.mp h).1 ha
      rw [hxs]
      exact ih _ (List.nodup_cons.mp h).2

theorem trd_go_mem : ∀ (fuel : Nat) (l : List Val), l.length ≤ fuel →
    ∀ v, (v ∈ trd_go fuel l ↔ v ∈ l) := by
  intro fuel
  induction fuel with
  | zero =>
      intro l h v
      have : l = [] := List.length_eq_zero.mp (Nat.le_zero.mp h)
      subst this
      rfl
  | succ k ihf =>
      intro l h v
      cases l with
      | nil => rfl
      | cons x xs =>
          have ih := ihf (xs.filter (fun w => w ≠ x))
            (le_trans (List.length_filter_le _ _) (Nat.le_of_succ_le_succ h)) v
          simp only [trd_go, List.mem_cons]
          constructor
          · rintro (rfl | hm)
            · exact Or.inl rfl
            · rcases List.mem_filter.mp (ih.mp hm) with ⟨hm2, _⟩
              exact Or.inr hm2
          · rintro (rfl | hm)
            · exact Or.inl rfl
            · by_cases hvx : v = x
              · exact Or.inl hvx
              · refine Or.inr (ih.mpr ?_)
                exact List.mem_filter.mpr ⟨hm, by simpa using hvx⟩

theorem trd_mem : ∀ (l : List Val) (v : Val), v ∈ tuple_remove_duplicate l ↔ v ∈ l :=
  fun l v => trd_go_mem l.length l le_rfl v

theorem getElem?_indexOf_self {α : Type} [DecidableEq α] (l : List α) (v : α) (h : v ∈ l) :
    l[l.indexOf v]? = some v := by
  have hlt := List.indexOf_lt_length.mpr h
  rw [List.getElem?_eq_getElem hlt, List.getElem_indexOf hlt]

theorem nodup_indexOf_getElem {α : Type} [DecidableEq α] (l : List α) (h : l.Nodup) (i : Nat)
    (hi : i < l.length) : l.indexOf l[i] = i := by
  have hm : l[i] ∈ l := List.getElem_mem hi
  have hlt := List.indexOf_lt_length.mpr hm
  exact (List.Nodup.getElem_inj_iff h).mp (List.getElem_indexOf hlt)

theorem getElem_notin_take {α : Type} (l : List α) (h : l.Nodup) (i argc : Nat)
    (hi : i < l.length) (hargc : argc ≤ i) : l[i] ∉ l.take argc := by
  intro hmem
  obtain ⟨j, hj, hje⟩ := List.mem_iff_getElem.mp hmem
  have hjlen : j < argc := by
    rw [List.length_take] at hj
    omega
  rw [List.getElem_take] at hje
  have := (List.Nodup.getElem_inj_iff h).mp hje
  omega

theorem mem_take_of_getElem {α : Type} (l : List α) (i argc : Nat) (hi : i < l.length)
    (hia : i < argc) : l[i] ∈ l.take argc := by
  have hlen : i < (l.take argc).length := by
    rw [List.length_take]
    omega
  have he : (l.take argc)[i] = l[i] := List.getElem_take l
  rw [← he]
  exact List.getElem_mem hlen

theorem indexOf_lt_argc {α : Type} [DecidableEq α] (l : List α) (h : l.Nodup) (nm : α)
    (argc : Nat) (hm : nm ∈ l.take argc) : l.indexOf nm < argc := by
  obtain ⟨j, hj, hje⟩ := List.mem_iff_getElem.mp hm
  rw [List.getElem_take] at hje
  have hjlen : j < l.length := by
    rw [List.length_take] at hj
    omega
  rw [← hje, nodup_indexOf_getElem l h j hjlen]
  rw [List.length_take] at hj
  omega

theorem indexOf_ge_argc {α : Type} [DecidableEq α] (l : List α) (nm : α)
    (argc : Nat) (hm : nm ∈ l) (hnot : nm ∉ l.take argc) : argc ≤ l.indexOf nm := by
  by_contra hlt
  push_neg at hlt
  apply hnot
  have hlen := List.indexOf_lt_length.mpr hm
  have he : l[l.indexOf nm] = nm := List.getElem_indexOf hlen
  rw [← he]
  exact mem_take_of_getElem l _ argc hlen hlt

theorem getD_replicate_self {α : Type} (n i : Nat) (d : α) :
    (List.replicate n d).getD i d = d := by
  simp only [List.getD_eq_getElem?_getD, List.getElem?_replicate]
  by_cases h : i < n <;> simp [h]

/-- C2 counterexample: on a function whose `co_varnames` are `("a", "x")`
with `x` a local variable, not a parameter (`co_argcount = 1`), binding
`{"x": 3}` raises no error at all — `inlined_partial` checks membership in
`co_varnames`, which contains locals — refuting the claim that every
non-parameter bound name fails with a "not a parameter" error. -/
theorem C2_cex_local_name_accepted :
    ( inlined_partial exF_local [("x", 3)] ["a"]).isSome = true ∧
    "x" ∉ exF_local.varnames.take exF_local.argcount := by
  decide

/-- C2 amended: `inlined_partial` raises its "not an argument" `KeyError` —
before any rewriting, leaving no partially-mutated function — exactly when
some bound name is absent from `co_varnames`, i.e. is neither a declared
parameter nor a local variable of `f`; a bound name that is a local
variable (but not a parameter) passes the validation. -/
theorem C2_validation_against_varnames :
    ∀ (f : PyFunc) (bindings : List (String × Val)) (setOrder : List String),
      ( inlined_partial f bindings setOrder = none ↔
        ∃ nm ∈ bindings.map Prod.fst, nm ∉ f.varnames) := by
  intro f bindings setOrder
  unfold inlined_partial
  by_cases h : ((bindings.map Prod.fst).all fun nm => f.varnames.contains nm) = true
  · rw [if_pos h]
    simp only [List.all_eq_true] at h
    constructor
    · intro hc
      exact absurd hc (by simp)
    · rintro ⟨nm, hmem, hnot⟩
      exact absurd (List.elem_iff.mp (h nm hmem)) hnot
  · rw [if_neg h]
    simp only [List.all_eq_true, not_forall] at h
    obtain ⟨nm, hmem, hnc⟩ := h
    refine iff_of_true rfl ⟨nm, hmem, ?_⟩
    intro hmemv
    exact hnc (List.elem_iff.mpr hmemv)

/-- C1 counterexample: binding only `b` of `f(a, b, c) = (a - c) + b` (not
all parameters).  `["c", "a"]` is a legitimate iteration order of the hash
set `set(co_varnames) - set(bindings)` = `{a, c}` (first Bool conjuncts:
it enumerates exactly that set, without duplicates), yet the rewritten
`g(1, 2)` returns `6` while `f(1, 5, 2) = 4`: the surviving parameters land
in slots in set order, not declaration order, so the remaining arguments
are swapped and `g(*remaining) = f(*remaining, **bindings)` fails. -/
theorem C1_cex_partial_binding_wrong_result :
    ((["c", "a"] : List String).Nodup
      ∧ (["c", "a"] : List String).all
          (fun nm => exF_abc.varnames.contains nm
            && !(([("b", (5 : Val))].map Prod.fst).contains nm)) = true
      ∧ exF_abc.varnames.all
          (fun nm => ([("b", (5 : Val))].map Prod.fst).contains nm
            || (["c", "a"] : List String).contains nm) = true)
    ∧ ( inlined_partial exF_abc [("b", 5)] ["c", "a"]).map (fun g => call g [1, 2])
        = some (some 6)
    ∧ call exF_abc [1, 5, 2] = some 4 := by
  decide

theorem rewrite_eq_map (code : List Instr) (cmap vmap : List (Nat × Nat)) :
    replace_fast_by_fast (replace_load_fast_by_load_const code cmap) vmap
      = code.map (rwInstr cmap vmap) := by
  simp only [replace_load_fast_by_load_const, replace_fast_by_fast, List.map_map]
  apply List.map_congr_left
  intro i _
  cases i with
  | loadFast n =>
      cases h : cmap.lookup n with
      | some c => simp [rwInstr, h, Function.comp]
      | none => simp [rwInstr, h, Function.comp]
  | storeFast n => simp [rwInstr, Function.comp]
  | loadConst k => simp [rwInstr, Function.comp]
  | binAdd => simp [rwInstr, Function.comp]
  | binSub => simp [rwInstr, Function.comp]
  | ret => simp [rwInstr, Function.comp]

theorem inlined_partial_sim
    (f : PyFunc) (bindings : List (String × Val)) (ord : List String)
    (hvn : f.varnames.Nodup)
    (hcn : f.consts.Nodup)
    (harg : f.argcount ≤ f.varnames.length)
    (hbn : (bindings.map Prod.fst).Nodup)
    (hcover : ∀ nm, nm ∈ bindings.map Prod.fst ↔ nm ∈ f.varnames.take f.argcount)
    (hon : ord.Nodup)
    (hom : ∀ nm, nm ∈ ord ↔ (nm ∈ f.varnames ∧ nm ∉ bindings.map Prod.fst)) :
    ∀ (code : List Instr) (stack : List Val) (oldL newL : List (Option Val)),
      (∀ k, Instr.loadConst k ∈ code → k < f.consts.length) →
      (∀ n, Instr.storeFast n ∈ code → f.argcount ≤ n) →
      oldL.length = f.varnames.length →
      newL.length = ord.length →
      (∀ n, n < f.argcount →
        oldL.getD n none = some ((bindings.lookup (f.varnames.getD n "")).getD 0)) →
      (∀ nm, nm ∈ ord →
        newL.getD (ord.indexOf nm) none = oldL.getD (f.varnames.indexOf nm) none) →
      exec (tuple_remove_duplicate (f.consts ++ bindings.map Prod.snd))
        (code.map (rwInstr
          (bindings.map fun p => (f.varnames.indexOf p.1,
            (tuple_remove_duplicate (f.consts ++ bindings.map Prod.snd)).indexOf p.2))
          (ord.map fun nm => (f.varnames.indexOf nm, ord.indexOf nm))))
        stack newL
      = exec f.consts code stack oldL := by
  intro code
  set NC := tuple_remove_duplicate (f.consts ++ bindings.map Prod.snd) with hNC
  set cmap := bindings.map fun p => (f.varnames.indexOf p.1, NC.indexOf p.2) with hcmap
  set vmap := ord.map fun nm => (f.varnames.indexOf nm, ord.indexOf nm) with hvmap
  have hsubn : ∀ p : String × Val, p ∈ bindings → p.1 ∈ f.varnames := by
    intro p hp
    exact List.take_subset _ _ ((hcover p.1).mp (List.mem_map_of_mem Prod.fst hp))
  have hbound : ∀ n, n < f.argcount →
      ∃ v, (bindings.lookup (f.varnames.getD n "")).getD 0 = v
        ∧ cmap.lookup n = some (NC.indexOf v)
        ∧ NC[NC.indexOf v]? = some v := by
    intro n hn
    have hnlen : n < f.varnames.length := lt_of_lt_of_le hn harg
    have hnm_take : f.varnames[n] ∈ f.varnames.take f.argcount :=
      mem_take_of_getElem _ n _ hnlen hn
    have hnm_keys : f.varnames[n] ∈ bindings.map Prod.fst := (hcover _).mpr hnm_take
    obtain ⟨v, hv⟩ := lookup_isSome_of_mem_keys bindings _ hnm_keys
    have hpair : (f.varnames[n], v) ∈ bindings := lookup_mem_pairs _ _ _ hv
    have hgetD : f.varnames.getD n "" = f.varnames[n] := List.getD_eq_getElem _ _ hnlen
    refine ⟨v, by rw [hgetD, hv]; rfl, ?_, ?_⟩
    · have hk : f.varnames.indexOf (f.varnames[n]) = n := nodup_indexOf_getElem _ hvn n hnlen
      have hinj : ∀ b ∈ bindings,
          f.varnames.indexOf b.1 = f.varnames.indexOf (f.varnames[n], v).1 → b = (f.varnames[n], v) := by
        intro b hb hkb
        have hb1 : b.1 ∈ f.varnames := hsubn b hb
        have hbe : b.1 = f.varnames[n] :=
          (List.indexOf_inj hb1 (List.getElem_mem hnlen)).mp hkb
        exact eq_of_fst_nodup bindings hbn b (f.varnames[n], v) hb hpair hbe
      have hlk := lookup_map_pair bindings (fun p => f.varnames.indexOf p.1)
        (fun p => NC.indexOf p.2) (f.varnames[n], v) hpair hinj
      rw [hcmap]
      simp only at hlk
      rw [hk] at hlk
      exact hlk
    · have hvmem : v ∈ NC := by
        rw [hNC]
        exact (trd_mem _ v).mpr
          (List.mem_append.mpr (Or.inr (List.mem_map_of_mem Prod.snd hpair)))
      exact getElem?_indexOf_self NC v hvmem
  have hsurv : ∀ nm ∈ ord, cmap.lookup (f.varnames.indexOf nm) = none
      ∧ vmap.lookup (f.varnames.indexOf nm) = some (ord.indexOf nm) := by
    intro nm hnm
    obtain ⟨hnmv, hnmk⟩ := (hom nm).mp hnm
    constructor
    · rw [hcmap]
      apply lookup_map_pair_none
      intro p hp hkp
      apply hnmk
      have hp1 : p.1 ∈ f.varnames := hsubn p hp
      have hpe : p.1 = nm := (List.indexOf_inj hp1 hnmv).mp hkp
      rw [← hpe]
      exact List.mem_map_of_mem Prod.fst hp
    · have hinj : ∀ b ∈ ord, f.varnames.indexOf b = f.varnames.indexOf nm → b = nm := by
        intro b hb hkb
        exact (List.indexOf_inj ((hom b).mp hb).1 hnmv).mp hkb
      rw [hvmap]
      exact lookup_map_pair ord (fun x => f.varnames.indexOf x) (fun x => ord.indexOf x)
        nm hnm hinj
  have hoob : ∀ n, f.varnames.length ≤ n → cmap.lookup n = none ∧ vmap.lookup n = none := by
    intro n hn
    constructor
    · rw [hcmap]
      apply lookup_map_pair_none
      intro p hp
      have := List.indexOf_lt_length.mpr (hsubn p hp)
      omega
    · rw [hvmap]
      apply lookup_map_pair_none
      intro x hx
      have := List.indexOf_lt_length.mpr ((hom x).mp hx).1
      omega
  have hmid : ∀ (n : Nat) (_ : f.argcount ≤ n) (hlt : n < f.varnames.length),
      f.varnames[n] ∈ ord ∧ f.varnames.indexOf (f.varnames[n]) = n := by
    intro n hge hlt
    have hnot : f.varnames[n] ∉ f.varnames.take f.argcount :=
      getElem_notin_take _ hvn n _ hlt hge
    have hnk : f.varnames[n] ∉ bindings.map Prod.fst := fun hk => hnot ((hcover _).mp hk)
    exact ⟨(hom _).mpr ⟨List.getElem_mem hlt, hnk⟩, nodup_indexOf_getElem _ hvn n hlt⟩
  have hordlen : ord.length ≤ f.varnames.length :=
    (List.Nodup.subperm hon (fun x hx => ((hom x).mp hx).1)).length_le
  have hca : ∀ k, k < f.consts.length → NC[k]? = f.consts[k]? := by
    intro k hk
    obtain ⟨t, ht⟩ := trd_prefix f.consts (bindings.map Prod.snd) hcn
    rw [hNC, ← ht, List.getElem?_append, if_pos hk]
  induction code with
  | nil =>
      intro stack oldL newL _ _ _ _ _ _
      rfl
  | cons i rest ih =>
      intro stack oldL newL hkc hks hol hnl hbnd hsv
      have hkc' : ∀ k, Instr.loadConst k ∈ rest → k < f.consts.length :=
        fun k hk => hkc k (List.mem_cons_of_mem _ hk)
      have hks' : ∀ n, Instr.storeFast n ∈ rest → f.argcount ≤ n :=
        fun n hn => hks n (List.mem_cons_of_mem _ hn)
      rw [List.map_cons]
      cases i with
      | loadFast n =>
          rcases Nat.lt_or_ge n f.argcount with hn | hn
          · obtain ⟨v, hv, hcl, hncv⟩ := hbound n hn
            have hrw : rwInstr cmap vmap (Instr.loadFast n)
                = Instr.loadConst (NC.indexOf v) := by
              simp [rwInstr, hcl]
            rw [hrw]
            have hold : oldL.getD n none = some v := by
              rw [hbnd n hn, hv]
            simp only [exec, hold, hncv]
            exact ih (v :: stack) oldL newL hkc' hks' hol hnl hbnd hsv
          · rcases Nat.lt_or_ge n f.varnames.length with hn2 | hn2
            · obtain ⟨hmem_ord, hidx⟩ := hmid n hn hn2
              obtain ⟨hcl, hvl⟩ := hsurv _ hmem_ord
              rw [hidx] at hcl hvl
              have hrw : rwInstr cmap vmap (Instr.loadFast n)
                  = Instr.loadFast (ord.indexOf f.varnames[n]) := by
                simp [rwInstr, hcl, hvl]
              rw [hrw]
              have hagree : newL.getD (ord.indexOf f.varnames[n]) none = oldL.getD n none := by
                have h := hsv _ hmem_ord
                rw [hidx] at h
                exact h
              cases hslot : oldL.getD n none with
              | none => simp only [exec, hagree, hslot]
              | some v =>
                  simp only [exec, hagree, hslot]
                  exact ih (v :: stack) oldL newL hkc' hks' hol hnl hbnd hsv
            · obtain ⟨hcl, hvl⟩ := hoob n hn2
              have hrw : rwInstr cmap vmap (Instr.loadFast n) = Instr.loadFast n := by
                simp [rwInstr, hcl, hvl]
              rw [hrw]
              have hofl : oldL.getD n none = none := List.getD_eq_default _ _ (by omega)
              have hnfl : newL.getD n none = none := List.getD_eq_default _ _ (by omega)
              simp only [exec, hofl, hnfl]
      | storeFast n =>
          have hn := hks n (List.mem_cons_self _ _)
          rcases Nat.lt_or_ge n f.varnames.length with hn2 | hn2
          · obtain ⟨hmem_ord, hidx⟩ := hmid n hn hn2
            obtain ⟨_, hvl⟩ := hsurv _ hmem_ord
            rw [hidx] at hvl
            have hrw : rwInstr cmap vmap (Instr.storeFast n)
                = Instr.storeFast (ord.indexOf f.varnames[n]) := by
              simp [rwInstr, hvl]
            rw [hrw]
            cases stack with
            | nil => simp only [exec]
            | cons v stack' =>
                have hlt_old : n < oldL.length := by omega
                have hlt_new : ord.indexOf f.varnames[n] < newL.length := by
                  rw [hnl]
                  exact List.indexOf_lt_length.mpr hmem_ord
                simp only [exec, if_pos hlt_old, if_pos hlt_new]
                apply ih stack' (oldL.set n (some v))
                  (newL.set (ord.indexOf f.varnames[n]) (some v)) hkc' hks'
                · rw [List.length_set]
                  exact hol
                · rw [List.length_set]
                  exact hnl
                · intro m hm
                  have hne : n ≠ m := by omega
                  rw [getD_set_other _ _ _ hne]
                  exact hbnd m hm
                · intro nm' hnm'
                  by_cases heq : nm' = f.varnames[n]
                  · subst heq
                    rw [hidx, getD_set_same _ _ _ _ hlt_new, getD_set_same _ _ _ _ hlt_old]
                  · have hj : ord.indexOf f.varnames[n] ≠ ord.indexOf nm' := by
                      intro hc
                      exact heq ((List.indexOf_inj hnm' hmem_ord).mp hc.symm)
                    have hi : n ≠ f.varnames.indexOf nm' := by
                      intro hc
                      apply heq
                      have hnm'v : nm' ∈ f.varnames := ((hom nm').mp hnm').1
                      have he : f.varnames[f.varnames.indexOf nm']? = some nm' :=
                        getElem?_indexOf_self _ _ hnm'v
                      rw [← hc, List.getElem?_eq_getElem hn2] at he
                      exact (Option.some.inj he).symm
                    rw [getD_set_other _ _ _ hj, getD_set_other _ _ _ hi]
                    exact hsv nm' hnm'
          · obtain ⟨_, hvl⟩ := hoob n hn2
            have hrw : rwInstr cmap vmap (Instr.storeFast n) = Instr.storeFast n := by
              simp [rwInstr, hvl]
            rw [hrw]
            cases stack with
            | nil => simp only [exec]
            | cons v stack' =>
                have h1 : ¬ n < oldL.length := by omega
                have h2 : ¬ n < newL.length := by omega
                simp only [exec, if_neg h1, if_neg h2]
      | loadConst k =>
          have hk := hkc k (List.mem_cons_self _ _)
          have hrw : rwInstr cmap vmap (Instr.loadConst k) = Instr.loadConst k := rfl
          rw [hrw]
          have hagree := hca k hk
          have hsome : f.consts[k]? = some f.consts[k] := List.getElem?_eq_getElem hk
          simp only [exec, hagree, hsome]
          exact ih _ oldL newL hkc' hks' hol hnl hbnd hsv
      | binAdd =>
          have hrw : rwInstr cmap vmap Instr.binAdd = Instr.binAdd := rfl
          rw [hrw]
          cases stack with
          | nil => simp only [exec]
          | cons v2 stack2 =>
              cases stack2 with
              | nil => simp only [exec]
              | cons v1 stack3 =>
                  simp only [exec]
                  exact ih _ oldL newL hkc' hks' hol hnl hbnd hsv
      | binSub =>
          have hrw : rwInstr cmap vmap Instr.binSub = Instr.binSub := rfl
          rw [hrw]
          cases stack with
          | nil => simp only [exec]
          | cons v2 stack2 =>
              cases stack2 with
              | nil => simp only [exec]
              | cons v1 stack3 =>
                  simp only [exec]
                  exact ih _ oldL newL hkc' hks' hol hnl hbnd hsv
      | ret =>
          have hrw : rwInstr cmap vmap Instr.ret = Instr.ret := rfl
          rw [hrw]
          cases stack with
          | nil => simp only [exec]
          | cons v s => simp only [exec]

/-- C1 amended: the rewrite of `inlined_partial` is an equivalent partial
application in the case the source relies on (its TODO): when the bindings
cover exactly the declared parameters of `f` (every parameter pinned), the
body never stores into a parameter slot, the code object is well formed
(no-duplicate `co_varnames`/`co_consts`, in-range `co_consts` indices), and
`setOrder` is any enumeration of `set(co_varnames) - set(bindings)` — then
`g() == f(**bindings)`, whatever that set order is.  With only some
parameters bound the equation can fail (see the counterexample). -/
theorem C1_all_params_bound_equiv
    (f : PyFunc) (bindings : List (String × Val)) (setOrder : List String) (g : PyFunc)
    (hvn : f.varnames.Nodup)
    (hcn : f.consts.Nodup)
    (harg : f.argcount ≤ f.varnames.length)
    (hbn : (bindings.map Prod.fst).Nodup)
    (hcover : ∀ nm, nm ∈ bindings.map Prod.fst ↔ nm ∈ f.varnames.take f.argcount)
    (hon : setOrder.Nodup)
    (hom : ∀ nm, nm ∈ setOrder ↔ (nm ∈ f.varnames ∧ nm ∉ bindings.map Prod.fst))
    (hkc : ∀ k, Instr.loadConst k ∈ f.code → k < f.consts.length)
    (hks : ∀ n, Instr.storeFast n ∈ f.code → f.argcount ≤ n)
    (hres :  inlined_partial f bindings setOrder = some g) :
    call g [] = call f ((f.varnames.take f.argcount).map
      (fun nm => (bindings.lookup nm).getD 0)) := by
  have hall : ((bindings.map Prod.fst).all fun nm => f.varnames.contains nm) = true := by
    rw [List.all_eq_true]
    intro nm hnm
    exact List.elem_iff.mpr (List.take_subset _ _ ((hcover nm).mp hnm))
  simp only [ inlined_partial, hall, if_true] at hres
  rw [Option.some.injEq] at hres
  subst hres
  have hblen : bindings.length = f.argcount := by
    have hperm : (bindings.map Prod.fst).Perm (f.varnames.take f.argcount) :=
      (List.perm_ext_iff_of_nodup hbn (hvn.sublist (List.take_sublist _ _))).mpr hcover
    have hl := hperm.length_eq
    rw [List.length_map, List.length_take, Nat.min_eq_left harg] at hl
    exact hl
  have hargslen : ((f.varnames.take f.argcount).map
      (fun nm => (bindings.lookup nm).getD 0)).length = f.argcount := by
    rw [List.length_map, List.length_take, Nat.min_eq_left harg]
  simp only [call]
  rw [if_pos, if_pos]
  rotate_left
  · exact ⟨hargslen, harg⟩
  · constructor
    · simp only [List.length_nil]
      omega
    · omega
  rw [rewrite_eq_map]
  have hmain := inlined_partial_sim f bindings setOrder hvn hcn harg hbn hcover hon hom
    f.code []
    (((f.varnames.take f.argcount).map (fun nm => (bindings.lookup nm).getD 0)).map some
      ++ List.replicate (f.varnames.length
          - ((f.varnames.take f.argcount).map (fun nm => (bindings.lookup nm).getD 0)).length)
        none)
    (List.replicate setOrder.length none)
    hkc hks ?hol ?hnl ?hbnd ?hsv
  case hol =>
    simp only [List.length_append, List.length_map, List.length_replicate, List.length_take,
      Nat.min_eq_left harg]
    omega
  case hnl => simp
  case hbnd =>
    intro n hn
    have hnlen : n < f.varnames.length := lt_of_lt_of_le hn harg
    have htk : n < (f.varnames.take f.argcount).length := by
      rw [List.length_take]
      omega
    have h1 : (f.varnames.take f.argcount)[n]? = some f.varnames[n] := by
      rw [List.getElem?_eq_getElem htk, List.getElem_take]
    rw [List.getD_eq_getElem?_getD, List.getElem?_append,
      if_pos (by simp only [List.length_map, List.length_take, Nat.min_eq_left harg]; omega)]
    simp only [List.getElem?_map, h1, Option.map_some', Option.getD_some]
    rw [List.getD_eq_getElem _ _ hnlen]
  case hsv =>
    intro nm hnm
    rw [getD_replicate_self]
    have hnmv : nm ∈ f.varnames := ((hom nm).mp hnm).1
    have hnot : nm ∉ f.varnames.take f.argcount :=
      fun ht => ((hom nm).mp hnm).2 ((hcover nm).mpr ht)
    have hge : f.argcount ≤ f.varnames.indexOf nm := indexOf_ge_argc _ nm _ hnmv hnot
    have hlt : f.varnames.indexOf nm < f.varnames.length := List.indexOf_lt_length.mpr hnmv
    symm
    rw [List.getD_eq_getElem?_getD, List.getElem?_append,
      if_neg (by simp only [List.length_map, List.length_take, Nat.min_eq_left harg]; omega)]
    rw [List.getElem?_replicate,
      if_pos (by simp only [List.length_map, List.length_take, Nat.min_eq_left harg]; omega)]
    rfl
  -- conclude: the locals of `call g []` are exactly the replicate list
  simpa using hmain

/-- C1 witness: `f(a) = a` with every parameter bound (`{a: 7}`, empty
surviving-variable order): the rewritten `g() = 7 = f(7)`. -/
theorem C1_all_params_bound_witness :
    call { argcount := 0, varnames := [], consts := [7], code := [Instr.loadConst 0, Instr.ret] } []
      = call exF_id ((exF_id.varnames.take exF_id.argcount).map
          (fun nm => (([("a", (7 : Val))].lookup nm).getD 0))) :=
  C1_all_params_bound_equiv exF_id [("a", 7)] [] _
    (by decide) (by decide) (by decide) (by decide)
    (by intro nm; simp [exF_id])
    (by decide)
    (by intro nm; simp [exF_id])
    (by intro k hk; simp [exF_id] at hk)
    (by intro n hn; simp [exF_id] at hn)
    (by decide)
